import Mathlib

/-!
Shallow embedding of the content-filtering core of `funpolice.py`.

Strings are modelled as `List Char` (the inputs of interest are ASCII).
The three regex patterns synthesized by `WordFilter.get_pattern` are
embedded as explicit sequences of character-class items, and matching is
performed by a backtracking matcher that enumerates match lengths in the
same preference order as the Python `re` engine (greedy quantifiers, the
optional tail tried present-first), anchored at a position and subject to
word-boundary assertions.
-/

namespace FunPolice

/-- ASCII model of the Python `\w` class (`[a-zA-Z0-9_]` for the inputs at hand). -/
def isWordChar (c : Char) : Bool :=
  c.isAlpha || c.isDigit || c == '_'

/-- ASCII model of the Python `\s` class. -/
def isSpaceChar (c : Char) : Bool :=
  c == ' ' || c == '\t' || c == '\n' || c == '\r'

/-- Convenience: the underlying character list of a string literal. -/
def str (s : String) : List Char := s.data

/-- `LEETSPEAK_MAP` from the source, as (leet char, normal letter) pairs. -/
def leetMap : List (Char × Char) :=
  [('4', 'a'), ('@', 'a'), ('3', 'e'), ('1', 'i'), ('!', 'i'), ('0', 'o'),
   ('5', 's'), ('$', 's'), ('7', 't'), ('+', 't'),
   ('2', 'z'), ('6', 'g'), ('8', 'b'), ('9', 'g')]

/-- Leet substitutes for a letter: the map keys whose value is that letter. -/
def leetAlts (c : Char) : List Char :=
  (leetMap.filter (fun p => p.2 == c)).map (fun p => p.1)

/-- The generic filler symbols `*.-_#!?+=` allowed at interior positions of
the leetspeak/wildcard pattern. -/
def fillerSymbols : List Char :=
  ['*', '.', '-', '_', '#', '!', '?', '+', '=']

/-- A character class of the embedded patterns. -/
inductive CharClass
  | chars (cs : List Char)
  | space
  | nonWordNonSpace

/-- Class membership test. -/
def CharClass.test : CharClass → Char → Bool
  | .chars cs, c => cs.contains c
  | .space, c => isSpaceChar c
  | .nonWordNonSpace, c => !(isWordChar c) && !(isSpaceChar c)

/-- One item of a linear pattern: a single class character, a greedy `+`
of a class, or a greedy `*` of a class. -/
inductive SItem
  | one (cls : CharClass)
  | many1 (cls : CharClass)
  | many0 (cls : CharClass)

/-- Length of the maximal prefix of `s` whose characters satisfy `cls`. -/
def runLen (cls : CharClass) : List Char → Nat
  | [] => 0
  | c :: s => if cls.test c then runLen cls s + 1 else 0

/-- `k, k-1, ..., 1`: the repetition counts a greedy `+` tries, in order. -/
def countdown1 : Nat → List Nat
  | 0 => []
  | k + 1 => (k + 1) :: countdown1 k

/-- `k, k-1, ..., 1, 0`: the repetition counts a greedy `*` tries. -/
def countdown0 (k : Nat) : List Nat := countdown1 k ++ [0]

/-- All lengths consumed by a pattern-item sequence at the head of `s`,
in the preference order of a backtracking regex engine. -/
def matchSeq : List SItem → List Char → List Nat
  | [], _ => [0]
  | SItem.one _ :: _, [] => []
  | SItem.one cls :: rest, c :: s =>
      if cls.test c then (matchSeq rest s).map (· + 1) else []
  | SItem.many1 cls :: rest, s =>
      (countdown1 (runLen cls s)).flatMap
        (fun n => (matchSeq rest (s.drop n)).map (· + n))
  | SItem.many0 cls :: rest, s =>
      (countdown0 (runLen cls s)).flatMap
        (fun n => (matchSeq rest (s.drop n)).map (· + n))

/-- A synthesized pattern: `\b`, the main item sequence, an optional
greedy tail group, and a closing `\b`. -/
structure Pattern where
  main : List SItem
  tailOpt : List SItem

/-- Whether the character at index `i` of `t` is a word character
(out of range counts as non-word). -/
def wordAtB (t : List Char) (i : Nat) : Bool :=
  match t[i]? with
  | some c => isWordChar c
  | none => false

/-- Model of the Python `\b` assertion at position `i` of `t`. -/
def boundaryAt (t : List Char) (i : Nat) : Bool :=
  (decide (i ≠ 0) && wordAtB t (i - 1)) != wordAtB t i

/-- First `some` produced by `f` along a list. -/
def firstSome {α β : Type} (f : α → Option β) : List α → Option β
  | [] => none
  | a :: l =>
      match f a with
      | some b => some b
      | none => firstSome f l

/-- Anchored match of a pattern at position `i` of `t`, returning the end
offset of the first match in engine preference order, if any. -/
def matchAt (pat : Pattern) (t : List Char) (i : Nat) : Option Nat :=
  if boundaryAt t i then
    let s := t.drop i
    firstSome
      (fun m =>
        match firstSome
            (fun k => if boundaryAt t (i + m + k) then some (i + m + k) else none)
            (matchSeq pat.tailOpt ((s.drop m))) with
        | some e => some e
        | none => if boundaryAt t (i + m) then some (i + m) else none)
      (matchSeq pat.main s)
  else none

/-- `re.finditer` over `t`: leftmost matches, scanning resumes at each
match end, so matches of one pattern never overlap each other. -/
def findIter (pat : Pattern) (t : List Char) : List (Nat × Nat) :=
  ((List.range (t.length + 1)).foldl
    (fun st i =>
      if i < st.2 then st
      else
        match matchAt pat t i with
        | some e => (st.1 ++ [(i, e)], if e ≤ i then i + 1 else e)
        | none => st)
    (([] : List (Nat × Nat)), 0)).1

/-- Character class matching one character of the word case-insensitively. -/
def caseClass (c : Char) : CharClass :=
  CharClass.chars [c.toUpper, c.toLower]

/-- Options of position `i` of the leetspeak/wildcard pattern for `word`:
both cases of the letter, its leet substitutes, and — at interior
positions only — the generic filler symbols. -/
def leetOptions (word : List Char) (i : Nat) (c : Char) : List Char :=
  [c.toUpper, c.toLower] ++ leetAlts c.toLower ++
    (if 0 < i ∧ i < word.length - 1 then fillerSymbols else [])

/-- The exact pattern `\b word s? \b`. -/
def exactPat (word : List Char) : Pattern where
  main := word.map (fun c => SItem.one (caseClass c))
  tailOpt := [SItem.one (CharClass.chars ['s', 'S'])]

/-- The combined leetspeak/wildcard/repetition pattern. -/
def leetPat (word : List Char) : Pattern where
  main :=
    (List.range word.length).map
      (fun i => SItem.many1 (CharClass.chars (leetOptions word i (word.getD i ' '))))
  tailOpt := [SItem.one (CharClass.chars ['s', 'S'])]

/-- The gap `\s*[^\w\s]*\s*` of the spaced pattern. -/
def gapItems : List SItem :=
  [SItem.many0 CharClass.space, SItem.many0 CharClass.nonWordNonSpace,
   SItem.many0 CharClass.space]

/-- The spaced-out pattern. -/
def spacedPat (word : List Char) : Pattern where
  main :=
    (List.range word.length).flatMap
      (fun i =>
        (if i = 0 then [] else gapItems) ++
          [SItem.one (caseClass (word.getD i ' '))])
  tailOpt := gapItems ++ [SItem.one (CharClass.chars ['s', 'S'])]

/-- `WordFilter.get_pattern`: the exact pattern always, plus the two
evasion patterns for words of length at least 3.  Each entry carries the
source word and the evasion tag. -/
def getPatterns (word : List Char) : List (Pattern × List Char × Bool) :=
  [(exactPat word, word, false)] ++
    (if 3 ≤ word.length then
      [(leetPat word, word, true), (spacedPat word, word, true)]
    else [])

/-! ### Replacement rendering: `preserve_case` and `pluralize_replacement` -/

/-- Python `str.isupper` over ASCII: at least one cased character, and no
cased character is lowercase. -/
def pyIsUpper (s : List Char) : Bool :=
  s.any Char.isAlpha && s.all (fun c => !c.isAlpha || c.isUpper)

/-- Python `str.islower` over ASCII. -/
def pyIsLower (s : List Char) : Bool :=
  s.any Char.isAlpha && s.all (fun c => !c.isAlpha || c.isLower)

/-- Python `str.capitalize`: first character uppercased, rest lowercased. -/
def pyCapitalize : List Char → List Char
  | [] => []
  | c :: t => c.toUpper :: t.map Char.toLower

/-- The mixed-case loop of `preserve_case`: character `i` of the
replacement is uppercased exactly when character `i` of the original is
uppercase; replacement characters beyond the original are lowercased. -/
def mixedCase : List Char → List Char → List Char
  | _, [] => []
  | [], c :: r => c.toLower :: mixedCase [] r
  | o :: os, c :: r =>
      (if o.isUpper then c.toUpper else c.toLower) :: mixedCase os r

/-- `preserve_case` from the source. -/
def preserveCase (original replacement : List Char) : List Char :=
  if original = [] ∨ replacement = [] then replacement
  else if pyIsUpper original then replacement.map Char.toUpper
  else if pyIsLower original then replacement.map Char.toLower
  else if (original.headD ' ').isUpper &&
      (original.length == 1 || pyIsLower original.tail) then
    pyCapitalize replacement
  else mixedCase original replacement

/-- The suffix rules of `pluralize_replacement`, before case transfer. -/
def pluralBase (replacement : List Char) : List Char :=
  if replacement.getLastD ' ' == 'y' then replacement.dropLast ++ ['i', 'e', 's']
  else if ['s', 'h'].isSuffixOf replacement ∨ ['c', 'h'].isSuffixOf replacement
      ∨ replacement.getLastD ' ' == 'x' then
    replacement ++ ['e', 's']
  else replacement ++ ['s']

/-- `pluralize_replacement` from the source. -/
def pluralizeReplacement (matchedText replacement : List Char) : List Char :=
  preserveCase matchedText (pluralBase replacement)

/-! ### Match validation -/

/-- Lowercase and strip non-word characters
(in the source, a regex substitution deleting every non-word character
of the lowercased matched text). -/
def cleanStr (s : List Char) : List Char :=
  (s.map Char.toLower).filter isWordChar

/-- Collapse runs of consecutive equal characters
(in the source, a regex substitution keeping one character per run). -/
def collapseRuns : List Char → List Char
  | [] => []
  | [c] => [c]
  | a :: b :: t =>
      if a == b then collapseRuns (b :: t) else a :: collapseRuns (b :: t)

/-- Whether `c` occurs as a consecutive double in `s` (`c * 2 in s`). -/
def hasDouble (c : Char) : List Char → Bool
  | a :: b :: t => (a == c && b == c) || hasDouble c (b :: t)
  | _ => false

/-- The evasion-quality check of `detect_and_replace_words`: `true` means
the candidate is kept.  Note the 50%-ratio denominator is the length of
the clean TARGET, and the length check compares the collapsed lengths. -/
def validateEvasion (matchedText baseWord : List Char) : Bool :=
  let cleanMatch := cleanStr matchedText
  let cleanTarget := baseWord.map Char.toLower
  let matchingChars := (cleanMatch.filter (fun c => cleanTarget.contains c)).length
  if 0 < cleanMatch.length ∧ 2 * matchingChars < cleanTarget.length then false
  else if (collapseRuns cleanMatch).length > (collapseRuns cleanTarget).length + 2 ∧
      cleanMatch.all (fun c => !(hasDouble c cleanTarget)) then false
  else true

/-- Validation applied to a candidate: evasion-tagged candidates go
through `validateEvasion`; exact candidates always pass. -/
def validateCandidate (isEvasion : Bool) (matchedText baseWord : List Char) : Bool :=
  if isEvasion then validateEvasion matchedText baseWord else true

/-! ### Whitelist (exemption) suppression -/

/-- Non-overlapping leftmost occurrences of a literal `needle` in `hay`,
as produced by `re.finditer(re.escape(needle), hay)`: the scan resumes at
the end of each occurrence found. -/
def substrOccs (needle hay : List Char) : List (Nat × Nat) :=
  ((List.range (hay.length + 1)).foldl
    (fun st i =>
      if i < st.2 then st
      else if needle.isPrefixOf (hay.drop i) then
        (st.1 ++ [(i, i + needle.length)], i + max needle.length 1)
      else st)
    (([] : List (Nat × Nat)), 0)).1

/-- Span intersection test of the source:
`not (match_end <= w_start or match_start >= w_end)`. -/
def overlapSpans (s e ws we : Nat) : Bool :=
  !(decide (e ≤ ws) || decide (s ≥ we))

/-- The whitelist check of `detect_and_replace_words`: the candidate span
is skipped when it overlaps an occurrence of any whitelisted phrase. -/
def skipMatch (contentLower : List Char) (whitelist : List (List Char))
    (ms me : Nat) : Bool :=
  whitelist.any (fun w =>
    (substrOccs (w.map Char.toLower) contentLower).any
      (fun occ => overlapSpans ms me occ.1 occ.2))

/-! ### The scanning pipeline -/

/-- Per-word filter data from the `forbidden` dictionary. -/
structure FilterData where
  replacement : List Char
  whitelist : List (List Char)
  deriving DecidableEq, Repr

/-- The `forbidden` dictionary: word (lowercased) to its filter data, in
insertion order. -/
abbrev Forbidden := List (List Char × FilterData)

/-- Plural test of the source: matched text ends in `s`/`S` (after
lowercasing) and is strictly longer than the base word. -/
def isPluralMatch (matchedText baseWord : List Char) : Bool :=
  ((matchedText.map Char.toLower).getLastD ' ' == 's') &&
    decide (baseWord.length < matchedText.length)

/-- Final replacement text for one match. -/
def renderReplacement (matchedText baseWord replacement : List Char) : List Char :=
  if isPluralMatch matchedText baseWord then
    pluralizeReplacement matchedText replacement
  else preserveCase matchedText replacement

/-- The substring of `t` from `s` (inclusive) to `e` (exclusive). -/
def extract (t : List Char) (s e : Nat) : List Char :=
  (t.drop s).take (e - s)

/-- All surviving candidates contributed by one forbidden word: scan with
each synthesized pattern, drop whitelisted spans, validate evasion
matches, and precompute the rendered replacement. -/
def candidatesFor (content : List Char) (word : List Char) (fd : FilterData) :
    List (Nat × Nat × List Char) :=
  (getPatterns word).flatMap (fun pbe =>
    (findIter pbe.1 content).filterMap (fun span =>
      let matchedText := extract content span.1 span.2
      if skipMatch (content.map Char.toLower) fd.whitelist span.1 span.2 then none
      else if !(validateCandidate pbe.2.2 matchedText pbe.2.1) then none
      else some (span.1, span.2, renderReplacement matchedText pbe.2.1 fd.replacement)))

/-- All surviving candidates over the whole forbidden dictionary. -/
def allCandidates (content : List Char) (forbidden : Forbidden) :
    List (Nat × Nat × List Char) :=
  forbidden.flatMap (fun wf => candidatesFor content wf.1 wf.2)

/-! ### Overlap resolution and application -/

/-- Stable insertion into a start-descending list: the new element goes
after existing elements with an equal start, as in the stable Python sort. -/
def insertDesc (m : Nat × Nat × List Char) :
    List (Nat × Nat × List Char) → List (Nat × Nat × List Char)
  | [] => [m]
  | x :: xs => if m.1 ≤ x.1 then x :: insertDesc m xs else m :: x :: xs

/-- `matches_to_replace.sort(key=lambda x: x[0], reverse=True)`. -/
def sortDesc (ms : List (Nat × Nat × List Char)) : List (Nat × Nat × List Char) :=
  ms.foldl (fun acc m => insertDesc m acc) []

/-- The greedy overlap-removal loop: accept a candidate exactly when its
span intersects no already-accepted span. -/
def greedyFilter (acc : List (Nat × Nat × List Char)) :
    List (Nat × Nat × List Char) → List (Nat × Nat × List Char)
  | [] => acc
  | m :: rest =>
      if acc.any (fun x => overlapSpans m.1 m.2.1 x.1 x.2.1) then
        greedyFilter acc rest
      else greedyFilter (acc ++ [m]) rest

/-- One string splice:
`new_content[:start] + replacement + new_content[end:]`. -/
def applyOne (t : List Char) (s e : Nat) (r : List Char) : List Char :=
  t.take s ++ r ++ t.drop e

/-- Apply the accepted replacements in list order (start-descending). -/
def applyAll (t : List Char) (ms : List (Nat × Nat × List Char)) : List Char :=
  ms.foldl (fun acc m => applyOne acc m.1 m.2.1 m.2.2) t

/-- The final, mutually disjoint accepted matches. -/
def filteredMatches (content : List Char) (forbidden : Forbidden) :
    List (Nat × Nat × List Char) :=
  greedyFilter [] (sortDesc (allCandidates content forbidden))

/-- `detect_and_replace_words` from the source. -/
def detectAndReplace (content : List Char) (forbidden : Forbidden) : List Char :=
  if forbidden = [] then content
  else applyAll content (filteredMatches content forbidden)

/-- The overlap resolver on its own: sort candidates by start offset
descending (stably), then greedily drop the ones whose span intersects an
already-accepted span. -/
def resolveOverlaps (ms : List (Nat × Nat × List Char)) :
    List (Nat × Nat × List Char) :=
  greedyFilter [] (sortDesc ms)

/-- Disjointness of two candidate spans (no shared character index). -/
def Disj (a b : Nat × Nat × List Char) : Prop :=
  a.2.1 ≤ b.1 ∨ b.2.1 ≤ a.1

/-- The list is ordered by start offset, descending. -/
def StartDesc (l : List (Nat × Nat × List Char)) : Prop :=
  l.Pairwise (fun a b => b.1 ≤ a.1)

/-- Spans are nonempty, in bounds, and strictly descending without
intersection: each later span ends no later than the previous start. -/
def Chain : Nat → List (Nat × Nat × List Char) → Prop
  | _, [] => True
  | b, m :: rest => m.1 < m.2.1 ∧ m.2.1 ≤ b ∧ Chain m.1 rest

/-- Canonical splice of a start-descending disjoint match list into the
original string: all segments come from the immutable original. -/
def spliceDesc (t : List Char) : List (Nat × Nat × List Char) → List Char
  | [] => t
  | m :: rest => spliceDesc (t.take m.1) rest ++ m.2.2 ++ t.drop m.2.1

/-! ### Rule cache (`ConfigCache`) and `load_server_config` -/

/-- One decoded entry of a community configuration:
`replacement -> { words, whitelist }`. -/
structure RawRule where
  replacement : List Char
  words : List (List Char)
  whitelist : List (List Char)
  deriving DecidableEq, Repr

/-- Python dict assignment: overwrite in place when the key exists (the
entry keeps its position), append otherwise. -/
def dictInsert {κ α : Type} [DecidableEq κ] (k : κ) (v : α) :
    List (κ × α) → List (κ × α)
  | [] => [(k, v)]
  | (k2, v2) :: rest =>
      if k2 = k then (k, v) :: rest else (k2, v2) :: dictInsert k v rest

/-- Python dict lookup. -/
def assocFind {κ α : Type} [DecidableEq κ] (k : κ) :
    List (κ × α) → Option α
  | [] => none
  | (k2, v) :: rest => if k2 = k then some v else assocFind k rest

/-- Python `dict.pop(key, None)`: drop the entry for the key. -/
def assocErase {κ α : Type} [DecidableEq κ] (k : κ) :
    List (κ × α) → List (κ × α)
  | [] => []
  | (k2, v) :: rest => if k2 = k then rest else (k2, v) :: assocErase k rest

/-- Building the `forbidden` dictionary in `load_server_config`: every
word of every entry maps to its replacement and lowercased whitelist;
on a conflict the last write wins. -/
def buildForbidden (entries : List RawRule) : Forbidden :=
  entries.foldl
    (fun acc e =>
      e.words.foldl
        (fun acc2 w =>
          dictInsert (w.map Char.toLower)
            ⟨e.replacement, e.whitelist.map (fun x => x.map Char.toLower)⟩ acc2)
        acc)
    []

/-- `load_server_config` at the boundary the cache depends on: `raw`
models the decoded community configuration, with `none` standing for the
failure paths the source itself catches (missing file,
`json.JSONDecodeError`, `UnicodeDecodeError`), in which case the function
returns the empty configuration — an empty forbidden dictionary — rather
than raising to its caller. -/
def loadServerConfig (raw : Option (List RawRule)) : Forbidden :=
  match raw with
  | none => []
  | some entries => buildForbidden entries

/-- A cache entry: the forbidden-dictionary snapshot and its build time. -/
structure CacheEntry where
  forbidden : Forbidden
  timestamp : Nat
  deriving DecidableEq, Repr

/-- The `configs` map of `ConfigCache`, keyed by community identifier. -/
structure CacheState where
  configs : List (Nat × CacheEntry)
  deriving DecidableEq, Repr

/-- `ConfigCache.cache_timeout` (seconds). -/
def cacheTimeout : Nat := 300

/-- `ConfigCache.get`: serve the cached snapshot while it is younger than
the timeout; otherwise rebuild through `load_server_config` and store the
result under the current time before returning it.  `now` models
`time.time()` and `raw` the configuration store contents seen by a
rebuild. -/
def cacheGet (st : CacheState) (gid : Nat) (now : Nat)
    (raw : Option (List RawRule)) : Forbidden × CacheState :=
  match assocFind gid st.configs with
  | some entry =>
      if now - entry.timestamp < cacheTimeout then (entry.forbidden, st)
      else
        let f := loadServerConfig raw
        (f, ⟨dictInsert gid ⟨f, now⟩ st.configs⟩)
  | none =>
      let f := loadServerConfig raw
      (f, ⟨dictInsert gid ⟨f, now⟩ st.configs⟩)

/-- `ConfigCache.invalidate`. -/
def cacheInvalidate (st : CacheState) (gid : Nat) : CacheState :=
  ⟨assocErase gid st.configs⟩

/-- Whether a pattern item consumes at least one character wherever it
matches. -/
def SItem.consumes : SItem → Bool
  | SItem.one _ => true
  | SItem.many1 _ => true
  | SItem.many0 _ => false

/-- The main item list of the pattern starts with a consuming item, so every
match spans at least one character. -/
def mainConsumes (pat : Pattern) : Prop :=
  ∃ it rest, pat.main = it :: rest ∧ it.consumes = true

/-- A concrete nonempty forbidden dictionary for witnesses. -/
def demoForbidden : Forbidden := [(str "x", ⟨str "y", []⟩)]

/-- A concrete decoded configuration for witnesses. -/
def demoRaw : List RawRule := [⟨str "z", [str "w"], []⟩]

/-! ### Helper lemmas on association lists -/

theorem assocFind_eq_none {κ α : Type} [DecidableEq κ] (k : κ)
    (l : List (κ × α)) (h : k ∉ l.map Prod.fst) : assocFind k l = none := by
  induction l with
  | nil => rfl
  | cons p rest ih =>
      cases p with
      | mk k2 v =>
          simp only [List.map_cons, List.mem_cons] at h
          push_neg at h
          simp only [assocFind]
          rw [if_neg (fun he => h.1 he.symm)]
          exact ih h.2

theorem assocFind_assocErase {κ α : Type} [DecidableEq κ] (k : κ)
    (l : List (κ × α)) (h : (l.map Prod.fst).Nodup) :
    assocFind k (assocErase k l) = none := by
  induction l with
  | nil => rfl
  | cons p rest ih =>
      cases p with
      | mk k2 v =>
          simp only [List.map_cons, List.nodup_cons] at h
          by_cases hk : k2 = k
          · subst hk
            simp only [assocErase, if_pos rfl]
            exact assocFind_eq_none _ _ h.1
          · simp only [assocErase, if_neg hk, assocFind]
            exact ih h.2

/-! ### Claim theorems: C2, C3, C4, C9 -/

/-- Claim C2, counterexample: with a prior nonempty cache entry present
and the rebuild load failing, `get` does not retain the previous entry —
it returns the empty forbidden dictionary and overwrites the entry with
it. -/
theorem c2_counterexample :
    (cacheGet ⟨[(1, ⟨demoForbidden, 0⟩)]⟩ 1 300 none).1 = [] ∧
    (cacheGet ⟨[(1, ⟨demoForbidden, 0⟩)]⟩ 1 300 none).1 ≠ demoForbidden ∧
    assocFind 1 (cacheGet ⟨[(1, ⟨demoForbidden, 0⟩)]⟩ 1 300 none).2.configs =
      some ⟨[], 300⟩ := by decide

/-- Claim C2 (amended): when a rebuild is triggered (entry absent or at
least TTL old) and the configuration load fails, `get` returns the empty
rule set — filtering becomes a no-op — whether or not a prior entry
exists, and stores that empty rule set over any previous entry; the
failure itself is swallowed inside `load_server_config` and never
propagated to the scanning path. -/
theorem c2_amended (st : CacheState) (gid now : Nat)
    (hstale : ∀ e, assocFind gid st.configs = some e →
      cacheTimeout ≤ now - e.timestamp) :
    (cacheGet st gid now none).1 = [] ∧
    (cacheGet st gid now none).2 = ⟨dictInsert gid ⟨[], now⟩ st.configs⟩ := by
  cases h : assocFind gid st.configs with
  | none => simp [cacheGet, h, loadServerConfig]
  | some e =>
      have hb := hstale e h
      simp [cacheGet, h, if_neg (by omega : ¬ now - e.timestamp < cacheTimeout),
        loadServerConfig]

/-- Witness for the amended claim C2 at a concrete stale state. -/
theorem c2_amended_witness :
    (cacheGet ⟨[(1, ⟨demoForbidden, 0⟩)]⟩ 1 300 none).1 = [] ∧
    (cacheGet ⟨[(1, ⟨demoForbidden, 0⟩)]⟩ 1 300 none).2 =
      ⟨dictInsert 1 ⟨[], 300⟩ [(1, ⟨demoForbidden, 0⟩)]⟩ :=
  c2_amended ⟨[(1, ⟨demoForbidden, 0⟩)]⟩ 1 300
    (fun e he => by
      have h2 : some (⟨demoForbidden, 0⟩ : CacheEntry) = some e := he
      cases h2
      decide)

/-- Claim C3, counterexample: for the rule mapping replacement `heck` to
banned word `darn`, the input `darn it` contains the banned word and is
rewritten to `heck it`, not returned unchanged. -/
theorem c3_counterexample :
    detectAndReplace (str "darn it") [(str "darn", ⟨str "heck", []⟩)] =
      str "heck it" ∧
    str "heck it" ≠ str "darn it" := by decide

/-- Claim C3 (amended): for the rule mapping replacement `darn` to the
single banned word `heck` (no whitelist), the input `darn it` — which
contains only the replacement text, not the banned word — is returned
unchanged: replacement text is never itself re-filtered as if it were
input. -/
theorem c3_amended :
    detectAndReplace (str "darn it") [(str "heck", ⟨str "darn", []⟩)] =
      str "darn it" := by decide

/-- Claim C4, counterexample: `+` is one of the generic filler symbols,
yet the leetspeak class at the first position of the length-3 term `tip`
admits it (as the leet substitute of `t`), and the input `a+ip` — filler
symbol at the first matched character — is matched and replaced. -/
theorem c4_counterexample :
    '+' ∈ fillerSymbols ∧
    '+' ∈ leetOptions (str "tip") 0 't' ∧
    3 ≤ (str "tip").length ∧
    detectAndReplace (str "a+ip") [(str "tip", ⟨str "cup", []⟩)] = str "acup" ∧
    str "acup" ≠ str "a+ip" := by decide

/-- Claim C4 (amended): the generic filler symbols are added to the
character class exactly at interior positions; at the first and last
positions the class holds only the two cases of the letter and its fixed
leetspeak substitutes — so a filler symbol is admitted at an edge
position only when it happens to be a leet substitute of that letter
(`!` for `i`, `+` for `t`).  For the term `shoe` with replacement
`sandal`, the input `s*oe` (interior wildcard) is matched and rendered
`sandal`, while `s*` (wildcard at final position) is not matched. -/
theorem c4_amended :
    (∀ w i c, 0 < i → i + 1 < List.length w →
        ∀ f2 ∈ fillerSymbols, f2 ∈ leetOptions w i c) ∧
    (∀ w c, leetOptions w 0 c = [c.toUpper, c.toLower] ++ leetAlts c.toLower) ∧
    (∀ w c, leetOptions w (w.length - 1) c =
        [c.toUpper, c.toLower] ++ leetAlts c.toLower) ∧
    detectAndReplace (str "s*oe") [(str "shoe", ⟨str "sandal", []⟩)] =
      str "sandal" ∧
    detectAndReplace (str "s*") [(str "shoe", ⟨str "sandal", []⟩)] =
      str "s*" := by
  refine ⟨?_, ?_, ?_, by decide, by decide⟩
  · intro w i c h1 h2 f2 hf
    unfold leetOptions
    rw [if_pos ⟨h1, by omega⟩]
    simp only [List.mem_append]
    exact Or.inr hf
  · intro w c
    unfold leetOptions
    rw [if_neg (by omega : ¬(0 < 0 ∧ 0 < w.length - 1))]
    simp
  · intro w c
    unfold leetOptions
    rw [if_neg (by omega : ¬(0 < w.length - 1 ∧ w.length - 1 < w.length - 1))]
    simp

/-- Witness for the amended claim C4: the wildcard `*` is admitted at the
interior position 1 of `shoe`. -/
theorem c4_amended_witness : '*' ∈ leetOptions (str "shoe") 1 'h' :=
  c4_amended.1 (str "shoe") 1 'h' (by decide) (by decide) '*' (by decide)

/-- Claim C9: `get` serves the cached snapshot, without consulting the
store, whenever the entry is younger than the TTL; on a miss or an
expired entry it rebuilds from the store and saves the result under the
current time before returning it; `invalidate` removes the entry, so the
next `get` rebuilds and reflects the store contents at that moment. -/
theorem c9_cache_freshness :
    (∀ st gid now raw raw2 e, assocFind gid st.configs = some e →
        now - e.timestamp < cacheTimeout →
        cacheGet st gid now raw = (e.forbidden, st) ∧
        cacheGet st gid now raw = cacheGet st gid now raw2) ∧
    (∀ st gid now raw,
        (∀ e, assocFind gid st.configs = some e →
          cacheTimeout ≤ now - e.timestamp) →
        cacheGet st gid now raw =
          (loadServerConfig raw,
            ⟨dictInsert gid ⟨loadServerConfig raw, now⟩ st.configs⟩)) ∧
    (∀ st gid, (st.configs.map Prod.fst).Nodup →
        assocFind gid (cacheInvalidate st gid).configs = none) ∧
    (∀ st gid now raw, (st.configs.map Prod.fst).Nodup →
        cacheGet (cacheInvalidate st gid) gid now raw =
          (loadServerConfig raw,
            ⟨dictInsert gid ⟨loadServerConfig raw, now⟩
              (cacheInvalidate st gid).configs⟩)) := by
  refine ⟨?_, ?_, ?_, ?_⟩
  · intro st gid now raw raw2 e h hfresh
    constructor
    · simp [cacheGet, h, if_pos hfresh]
    · simp [cacheGet, h, if_pos hfresh]
  · intro st gid now raw hstale
    cases h : assocFind gid st.configs with
    | none => simp [cacheGet, h]
    | some e =>
        have hb := hstale e h
        simp [cacheGet, h, if_neg (by omega : ¬ now - e.timestamp < cacheTimeout)]
  · intro st gid h
    exact assocFind_assocErase _ _ h
  · intro st gid now raw h
    have h2 : assocFind gid (cacheInvalidate st gid).configs = none :=
      assocFind_assocErase _ _ h
    simp [cacheGet, h2]

/-- Witness for claim C9 at concrete states: a fresh hit serves the
snapshot regardless of the store; after invalidation the rebuild reflects
the store. -/
theorem c9_witness :
    cacheGet ⟨[(1, ⟨demoForbidden, 100⟩)]⟩ 1 200 (some demoRaw) =
      (demoForbidden, ⟨[(1, ⟨demoForbidden, 100⟩)]⟩) ∧
    cacheGet (cacheInvalidate ⟨[(1, ⟨demoForbidden, 100⟩)]⟩ 1) 1 200
        (some demoRaw) =
      (loadServerConfig (some demoRaw),
        ⟨dictInsert 1 ⟨loadServerConfig (some demoRaw), 200⟩
          (cacheInvalidate ⟨[(1, ⟨demoForbidden, 100⟩)]⟩ 1).configs⟩) :=
  ⟨(c9_cache_freshness.1 ⟨[(1, ⟨demoForbidden, 100⟩)]⟩ 1 200 (some demoRaw)
      (some demoRaw) ⟨demoForbidden, 100⟩ rfl (by decide)).1,
   c9_cache_freshness.2.2.2 ⟨[(1, ⟨demoForbidden, 100⟩)]⟩ 1 200 (some demoRaw)
      (by decide)⟩

/-- Claim C1, counterexample: the leetspeak pattern for the term `boot`
matches the input `b0000000t` in full, producing an evasion-tagged
candidate whose clean match `b0000000t` has only 2 of its 9 characters
(`b` and `t`) appearing in the clean target `boot` — fewer than half, so
the claim demands rejection — yet the validator keeps it, because the
code divides the matching-character count by the length of the clean
TARGET (4 ≤ 2·2), and the whole pipeline rewrites the input to the
replacement. -/
theorem c1_counterexample :
    2 * ((cleanStr (str "b0000000t")).filter
        (fun c => (str "boot").contains c)).length <
      (cleanStr (str "b0000000t")).length ∧
    validateCandidate true (str "b0000000t") (str "boot") = true ∧
    detectAndReplace (str "b0000000t") [(str "boot", ⟨str "shoe", []⟩)] =
      str "shoe" := by
  decide

/-- Claim C1 (amended): exact-match candidates always pass; an
evasion-tagged candidate is rejected exactly when its clean match is
nonempty and the number of its characters appearing anywhere in the clean
target is less than half the length of the clean target, or when the
collapsed clean match is more than 2 characters longer than the collapsed clean
target and no character of the clean match occurs as a consecutive
double in the clean target (clean = lowercased with non-word characters
stripped). -/
theorem c1_amended :
    (∀ mt bw, validateCandidate false mt bw = true) ∧
    (∀ mt bw, validateEvasion mt bw = true ↔
      ((cleanStr mt = [] ∨
          (bw.map Char.toLower).length ≤
            2 * ((cleanStr mt).filter
              (fun c => (bw.map Char.toLower).contains c)).length) ∧
        ((collapseRuns (cleanStr mt)).length ≤
            (collapseRuns (bw.map Char.toLower)).length + 2 ∨
          ∃ c ∈ cleanStr mt, hasDouble c (bw.map Char.toLower) = true))) := by
  constructor
  · intro mt bw
    rfl
  · intro mt bw
    simp only [validateEvasion]
    split_ifs with h1 h2
    · simp only [false_iff]
      intro hc
      rcases hc.1 with hnil | hle
      · rw [hnil] at h1
        simp at h1
      · omega
    · simp only [false_iff]
      intro hc
      rcases hc.2 with hle | ⟨c, hcm, hdub⟩
      · omega
      · have := List.all_eq_true.mp h2.2 c hcm
        simp [hdub] at this
    · simp only [true_iff]
      push_neg at h1
      constructor
      · by_cases hn : (cleanStr mt).length = 0
        · exact Or.inl (List.length_eq_zero.mp hn)
        · exact Or.inr (by
            have := h1 (by omega)
            omega)
      · by_cases hg : (collapseRuns (cleanStr mt)).length ≤
            (collapseRuns (bw.map Char.toLower)).length + 2
        · exact Or.inl hg
        · refine Or.inr ?_
          have hall : ¬ (cleanStr mt).all
              (fun c => !(hasDouble c (bw.map Char.toLower))) = true := by
            intro hcontra
            exact h2 ⟨by omega, hcontra⟩
          simp only [List.all_eq_true, Bool.not_eq_true'] at hall
          push_neg at hall
          obtain ⟨c, hcm, hd⟩ := hall
          exact ⟨c, hcm, by simpa using hd⟩

/-- Claim C7: a match is plural exactly when its matched text ends in
`s`/`S` and is strictly longer than its owning term; pluralization drops
a final `y` for `ies`, appends `es` after `sh`/`ch`/`x`, and appends `s`
otherwise; and for the rule mapping replacement `kitty` to banned word
`cat`, the input `cats` renders as `kitties`. -/
theorem c7_pluralization :
    (∀ mt bw, isPluralMatch mt bw = true ↔
        ((mt.map Char.toLower).getLastD ' ' = 's' ∧ bw.length < mt.length)) ∧
    (∀ r, pluralBase (r ++ ['y']) = r ++ ['i', 'e', 's']) ∧
    (∀ r, pluralBase (r ++ ['s', 'h']) = r ++ ['s', 'h', 'e', 's']) ∧
    (∀ r, pluralBase (r ++ ['c', 'h']) = r ++ ['c', 'h', 'e', 's']) ∧
    (∀ r, pluralBase (r ++ ['x']) = r ++ ['x', 'e', 's']) ∧
    (∀ r, r.getLastD ' ' ≠ 'y' → ['s', 'h'].isSuffixOf r = false →
        ['c', 'h'].isSuffixOf r = false → r.getLastD ' ' ≠ 'x' →
        pluralBase r = r ++ ['s']) ∧
    detectAndReplace (str "cats") [(str "cat", ⟨str "kitty", []⟩)] =
      str "kitties" := by
  refine ⟨?_, ?_, ?_, ?_, ?_, ?_, by decide⟩
  · intro mt bw
    simp [isPluralMatch]
  · intro r
    have h1 : (r ++ ['y']).getLastD ' ' = 'y' := by simp
    simp [pluralBase, h1]
  · intro r
    have h1 : (r ++ ['s', 'h']).getLastD ' ' = 'h' := by
      rw [show r ++ ['s', 'h'] = (r ++ ['s']) ++ ['h'] by simp]
      simp
    have h2 : ['s', 'h'].isSuffixOf (r ++ ['s', 'h']) = true := by
      simp [List.isSuffixOf_iff_suffix]
    simp [pluralBase, h1, h2]
  · intro r
    have h1 : (r ++ ['c', 'h']).getLastD ' ' = 'h' := by
      rw [show r ++ ['c', 'h'] = (r ++ ['c']) ++ ['h'] by simp]
      simp
    have h2 : ['c', 'h'].isSuffixOf (r ++ ['c', 'h']) = true := by
      simp [List.isSuffixOf_iff_suffix]
    simp [pluralBase, h1, h2]
  · intro r
    have h1 : (r ++ ['x']).getLastD ' ' = 'x' := by simp
    simp [pluralBase, h1]
  · intro r hy hsh hch hx
    unfold pluralBase
    rw [if_neg (by simpa using hy)]
    rw [if_neg ?hcond]
    case hcond =>
      intro hc
      rcases hc with h | h | h
      · rw [hsh] at h
        exact Bool.false_ne_true h
      · rw [hch] at h
        exact Bool.false_ne_true h
      · exact hx (by simpa using h)

/-- Witness for claim C7: the theorem applied at concrete inputs,
discharging the hypotheses of the otherwise-add-`s` rule at `cup`. -/
theorem c7_witness :
    pluralBase (str "cup") = str "cup" ++ ['s'] ∧
    isPluralMatch (str "cats") (str "cat") = true :=
  ⟨c7_pluralization.2.2.2.2.2.1 (str "cup") (by decide) (by decide) (by decide)
      (by decide),
   (c7_pluralization.1 (str "cats") (str "cat")).mpr (by decide)⟩

/-- Claim C8: case transfer for nonempty match and replacement follows
the ordered rules — all-uppercase match uppercases the replacement;
all-lowercase lowercases it; a capitalized match (capital first letter,
rest lowercase or absent) capitalizes it; any other match maps case
positionally, lowercasing replacement characters beyond the match — and
for the rule mapping replacement `friend` to banned word `foe`, input
`FOE` renders `FRIEND` and input `Foe` renders `Friend`. -/
theorem c8_case_transfer :
    (∀ o r, o ≠ [] → r ≠ [] → pyIsUpper o = true →
        preserveCase o r = r.map Char.toUpper) ∧
    (∀ o r, o ≠ [] → r ≠ [] → pyIsUpper o = false → pyIsLower o = true →
        preserveCase o r = r.map Char.toLower) ∧
    (∀ o r, o ≠ [] → r ≠ [] → pyIsUpper o = false → pyIsLower o = false →
        (o.headD ' ').isUpper = true → (o.tail = [] ∨ pyIsLower o.tail = true) →
        preserveCase o r = pyCapitalize r) ∧
    (∀ o r, o ≠ [] → r ≠ [] → pyIsUpper o = false → pyIsLower o = false →
        ¬((o.headD ' ').isUpper = true ∧ (o.tail = [] ∨ pyIsLower o.tail = true)) →
        preserveCase o r = mixedCase o r) ∧
    (∀ o r i, i < r.length →
        (mixedCase o r).getD i ' ' =
          (if i < o.length ∧ (o.getD i ' ').isUpper then (r.getD i ' ').toUpper
           else (r.getD i ' ').toLower)) ∧
    detectAndReplace (str "FOE") [(str "foe", ⟨str "friend", []⟩)] =
      str "FRIEND" ∧
    detectAndReplace (str "Foe") [(str "foe", ⟨str "friend", []⟩)] =
      str "Friend" := by
  have htail : ∀ o : List Char, o ≠ [] → ((o.length == 1) = (o.tail == [])) := by
    intro o ho
    cases o with
    | nil => exact absurd rfl ho
    | cons a t => cases t <;> simp
  refine ⟨?_, ?_, ?_, ?_, ?_, by decide, by decide⟩
  · intro o r ho hr hu
    simp [preserveCase, ho, hr, hu]
  · intro o r ho hr hu hl
    simp [preserveCase, ho, hr, hu, hl]
  · intro o r ho hr hu hl hhead htl
    have hhead2 : (o.head?.getD ' ').isUpper = true := by simpa using hhead
    have hcond : ((o.headD ' ').isUpper &&
        (o.length == 1 || pyIsLower o.tail)) = true := by
      rw [htail o ho]
      rcases htl with h | h <;> simp [hhead2, h]
    unfold preserveCase
    rw [if_neg (by simp [ho, hr]), if_neg (by simp [hu]),
      if_neg (by simp [hl]), if_pos hcond]
  · intro o r ho hr hu hl hneg
    have hcond : ((o.headD ' ').isUpper &&
        (o.length == 1 || pyIsLower o.tail)) = false := by
      rw [htail o ho]
      by_cases hh : (o.headD ' ').isUpper = true
      · have h2 : ¬(o.tail = [] ∨ pyIsLower o.tail = true) := fun hc => hneg ⟨hh, hc⟩
        push_neg at h2
        have h3 : pyIsLower o.tail = false := by simpa using h2.2
        have hh3 : (o.head?.getD ' ').isUpper = true := by simpa using hh
        simp [hh3, h3, h2.1]
      · have hh2 : (o.head?.getD ' ').isUpper = false := by
          simpa using hh
        simp [hh2]
    unfold preserveCase
    rw [if_neg (by simp [ho, hr]), if_neg (by simp [hu]),
      if_neg (by simp [hl]),
      if_neg (fun hc => by rw [hcond] at hc; exact Bool.false_ne_true hc)]
  · intro o r i
    induction r generalizing o i with
    | nil => intro h; simp at h
    | cons c rt ih =>
        intro hi
        cases o with
        | nil =>
            cases i with
            | zero => simp [mixedCase]
            | succ j =>
                simp only [mixedCase, List.getD_cons_succ]
                have := ih [] j (by simpa using hi)
                simpa using this
        | cons a ot =>
            cases i with
            | zero => simp [mixedCase, List.getD_cons_zero]
            | succ j =>
                simp only [mixedCase, List.getD_cons_succ]
                have := ih ot j (by simpa using hi)
                rw [this]
                simp [Nat.succ_lt_succ_iff]

/-- Witness for claim C8 at concrete inputs. -/
theorem c8_witness :
    preserveCase (str "FOE") (str "friend") = (str "friend").map Char.toUpper ∧
    preserveCase (str "Foe") (str "friend") = pyCapitalize (str "friend") ∧
    preserveCase (str "fOe") (str "friend") = mixedCase (str "fOe") (str "friend") :=
  ⟨c8_case_transfer.1 (str "FOE") (str "friend") (by decide) (by decide) (by decide),
   c8_case_transfer.2.2.1 (str "Foe") (str "friend") (by decide) (by decide)
     (by decide) (by decide) (by decide) (Or.inr (by decide)),
   c8_case_transfer.2.2.2.1 (str "fOe") (str "friend") (by decide) (by decide)
     (by decide) (by decide) (by decide)⟩

/-! ### Foldl invariants, whitelist occurrence lemmas, claim C6 -/

theorem foldl_preserve {σ α : Type} (P : σ → Prop) (f : σ → α → σ)
    (l : List α) (init : σ) (h0 : P init)
    (hstep : ∀ s a, P s → P (f s a)) : P (l.foldl f init) := by
  induction l generalizing init with
  | nil => exact h0
  | cons a t ih => exact ih _ (hstep _ _ h0)

theorem substrOccs_sound (needle hay : List Char) :
    ∀ occ ∈ substrOccs needle hay,
      needle.isPrefixOf (hay.drop occ.1) = true ∧
        occ.2 = occ.1 + needle.length := by
  unfold substrOccs
  refine foldl_preserve
    (
      fun st : List (Nat × Nat) × Nat =>
        ∀ occ ∈ st.1, needle.isPrefixOf (hay.drop occ.1) = true ∧
          occ.2 = occ.1 + needle.length)
    _ _ _ ?_ ?_
  · intro occ h
    simp at h
  · intro st i hP
    dsimp only
    split_ifs with h1 h2
    · exact hP
    · intro occ hocc
      rcases List.mem_append.mp hocc with h | h
      · exact hP occ h
      · have he : occ = (i, i + needle.length) := by simpa using h
        subst he
        exact ⟨h2, rfl⟩
    · exact hP

theorem skipMatch_iff (contentLower : List Char) (whitelist : List (List Char))
    (ms me : Nat) :
    skipMatch contentLower whitelist ms me = true ↔
      ∃ w ∈ whitelist, ∃ occ ∈ substrOccs (w.map Char.toLower) contentLower,
        overlapSpans ms me occ.1 occ.2 = true := by
  simp [skipMatch, List.any_eq_true]

/-- Claim C6: a candidate is suppressed exactly when its span shares a
character index with an occurrence of a whitelisted phrase for its rule,
occurrences being found by plain case-insensitive substring search (the
scan resumes after each occurrence found, so consecutive occurrences do
not overlap); every reported occurrence is a genuine substring match of
the lowercased phrase; span intersection means a shared character index;
and the two concrete behaviors hold: `I love Hamlet` is unchanged and
`ham sandwich` becomes `bar sandwich`. -/
theorem c6_whitelist_suppression :
    (∀ contentLower whitelist ms me,
      skipMatch contentLower whitelist ms me = true ↔
        ∃ w ∈ whitelist, ∃ occ ∈ substrOccs (w.map Char.toLower) contentLower,
          overlapSpans ms me occ.1 occ.2 = true) ∧
    (∀ needle hay, ∀ occ ∈ substrOccs needle hay,
        needle.isPrefixOf (hay.drop occ.1) = true ∧
          occ.2 = occ.1 + needle.length) ∧
    (∀ s e ws we : Nat, s < e → ws < we →
        (overlapSpans s e ws we = true ↔
          ∃ i, s ≤ i ∧ i < e ∧ ws ≤ i ∧ i < we)) ∧
    detectAndReplace (str "I love Hamlet")
        [(str "ham", ⟨str "bar", [str "hamlet"]⟩)] = str "I love Hamlet" ∧
    detectAndReplace (str "ham sandwich")
        [(str "ham", ⟨str "bar", [str "hamlet"]⟩)] = str "bar sandwich" := by
  refine ⟨skipMatch_iff, substrOccs_sound, ?_, by decide, by decide⟩
  intro s e ws we hse hwswe
  unfold overlapSpans
  simp only [Bool.not_eq_true', Bool.or_eq_false_iff, decide_eq_false_iff_not,
    not_le, not_lt, Bool.not_eq_false, Bool.or_eq_true, decide_eq_true_eq]
  constructor
  · intro h
    exact ⟨max s ws, by omega, by omega, by omega, by omega⟩
  · intro ⟨i, h1, h2, h3, h4⟩
    constructor <;> omega

/-- Witness for claim C6: the theorem applied at the concrete occurrence
of `hamlet` inside the lowercased `I love Hamlet`. -/
theorem c6_witness :
    (str "hamlet").isPrefixOf (((str "I love Hamlet").map Char.toLower).drop 7) =
      true ∧
    (13 : Nat) = 7 + (str "hamlet").length :=
  c6_whitelist_suppression.2.1 (str "hamlet")
    ((str "I love Hamlet").map Char.toLower) (7, 13) (by decide)

/-! ### Lemmas about the stable sort and the greedy overlap filter -/

theorem mem_insertDesc {m x : Nat × Nat × List Char}
    {l : List (Nat × Nat × List Char)} :
    x ∈ insertDesc m l ↔ x = m ∨ x ∈ l := by
  induction l with
  | nil => simp [insertDesc]
  | cons a t ih =>
      unfold insertDesc
      split_ifs with h
      · simp only [List.mem_cons, ih]
        try tauto
      · simp only [List.mem_cons]
        try tauto

theorem mem_sortDescAux (l : List (Nat × Nat × List Char)) :
    ∀ acc x, (x ∈ l.foldl (fun acc m => insertDesc m acc) acc) ↔
      (x ∈ acc ∨ x ∈ l) := by
  induction l with
  | nil => simp
  | cons a t ih =>
      intro acc x
      simp only [List.foldl_cons, List.mem_cons]
      rw [ih, mem_insertDesc]
      tauto

theorem mem_sortDesc {x : Nat × Nat × List Char}
    {ms : List (Nat × Nat × List Char)} : x ∈ sortDesc ms ↔ x ∈ ms := by
  unfold sortDesc
  rw [mem_sortDescAux]
  simp

theorem startDesc_insertDesc (m : Nat × Nat × List Char) :
    ∀ l, StartDesc l → StartDesc (insertDesc m l) := by
  intro l
  induction l with
  | nil =>
      intro _
      exact List.pairwise_singleton _ _
  | cons a t ih =>
      intro h
      have h2 := List.pairwise_cons.mp h
      unfold insertDesc
      split_ifs with hle
      · refine List.pairwise_cons.mpr ⟨?_, ih h2.2⟩
        intro x hx
        rcases mem_insertDesc.mp hx with rfl | hx2
        · exact hle
        · exact h2.1 x hx2
      · refine List.pairwise_cons.mpr ⟨?_, h⟩
        intro x hx
        rcases List.mem_cons.mp hx with rfl | hx2
        · omega
        · have := h2.1 x hx2
          omega

theorem startDesc_sortDesc (ms : List (Nat × Nat × List Char)) :
    StartDesc (sortDesc ms) := by
  unfold sortDesc
  suffices h : ∀ acc, StartDesc acc →
      StartDesc (ms.foldl (fun acc m => insertDesc m acc) acc) from
    h [] List.Pairwise.nil
  induction ms with
  | nil => intro acc h; exact h
  | cons a t ih =>
      intro acc h
      exact ih _ (startDesc_insertDesc a acc h)

theorem greedyFilter_spec (l : List (Nat × Nat × List Char)) :
    ∀ acc, ∃ t2, greedyFilter acc l = acc ++ t2 ∧ t2.Sublist l := by
  induction l with
  | nil =>
      intro acc
      exact ⟨[], by simp [greedyFilter]⟩
  | cons m rest ih =>
      intro acc
      unfold greedyFilter
      split_ifs with h
      · obtain ⟨t2, he, hs⟩ := ih acc
        exact ⟨t2, he, hs.cons m⟩
      · obtain ⟨t2, he, hs⟩ := ih (acc ++ [m])
        refine ⟨m :: t2, ?_, hs.cons₂ m⟩
        rw [he]
        simp

theorem greedyFilter_pairwise (l : List (Nat × Nat × List Char)) :
    ∀ acc, acc.Pairwise Disj → (greedyFilter acc l).Pairwise Disj := by
  induction l with
  | nil =>
      intro acc h
      exact h
  | cons m rest ih =>
      intro acc h
      unfold greedyFilter
      split_ifs with hov
      · exact ih acc h
      · refine ih (acc ++ [m]) ?_
        rw [List.pairwise_append]
        refine ⟨h, List.pairwise_singleton _ _, ?_⟩
        intro a ha b hb
        rw [List.mem_singleton] at hb
        subst hb
        have h2 : overlapSpans b.1 b.2.1 a.1 a.2.1 = false := by
          by_contra hc
          exact hov (List.any_eq_true.mpr ⟨a, ha, by simpa using hc⟩)
        simp only [overlapSpans, Bool.not_eq_false', Bool.or_eq_true,
          decide_eq_true_eq] at h2
        unfold Disj
        omega

theorem greedyFilter_complete (l : List (Nat × Nat × List Char)) :
    ∀ acc, ∀ m ∈ l, m ∈ greedyFilter acc l ∨
      ∃ x ∈ greedyFilter acc l, overlapSpans m.1 m.2.1 x.1 x.2.1 = true := by
  induction l with
  | nil =>
      intro acc m hm
      simp at hm
  | cons a rest ih =>
      intro acc m hm
      unfold greedyFilter
      rcases List.mem_cons.mp hm with rfl | hm2
      · split_ifs with hov
        · obtain ⟨x, hx, hover⟩ := List.any_eq_true.mp hov
          obtain ⟨t2, he, _⟩ := greedyFilter_spec rest acc
          refine Or.inr ⟨x, ?_, by simpa using hover⟩
          rw [he]
          exact List.mem_append.mpr (Or.inl hx)
        · obtain ⟨t2, he, _⟩ := greedyFilter_spec rest (acc ++ [m])
          refine Or.inl ?_
          rw [he]
          refine List.mem_append.mpr (Or.inl ?_)
          simp
      · split_ifs with hov
        · exact ih acc m hm2
        · exact ih (acc ++ [a]) m hm2

/-! ### Span bounds of scanned candidates -/

theorem runLen_le (cls : CharClass) (s : List Char) : runLen cls s ≤ s.length := by
  induction s with
  | nil => simp [runLen]
  | cons c t ih =>
      unfold runLen
      split_ifs
      · simp only [List.length_cons]
        omega
      · simp

theorem mem_countdown1 {k r : Nat} : k ∈ countdown1 r → 1 ≤ k ∧ k ≤ r := by
  induction r with
  | zero =>
      intro h
      simp [countdown1] at h
  | succ n ih =>
      intro h
      unfold countdown1 at h
      rcases List.mem_cons.mp h with rfl | h2
      · omega
      · have := ih h2
        omega

theorem mem_countdown0 {k r : Nat} : k ∈ countdown0 r → k ≤ r := by
  intro h
  unfold countdown0 at h
  rcases List.mem_append.mp h with h2 | h2
  · exact (mem_countdown1 h2).2
  · simp at h2
    omega

theorem matchSeq_le (items : List SItem) :
    ∀ s : List Char, ∀ n ∈ matchSeq items s, n ≤ s.length := by
  induction items with
  | nil =>
      intro s n h
      simp [matchSeq] at h
      omega
  | cons it rest ih =>
      intro s n h
      cases it with
      | one cls =>
          cases s with
          | nil => simp [matchSeq] at h
          | cons c t =>
              unfold matchSeq at h
              split_ifs at h with htest
              · simp only [List.mem_map] at h
                obtain ⟨n2, hn2, rfl⟩ := h
                have := ih t n2 hn2
                simp only [List.length_cons]
                omega
              · simp at h
      | many1 cls =>
          unfold matchSeq at h
          simp only [List.mem_flatMap, List.mem_map] at h
          obtain ⟨k, hk, n2, hn2, rfl⟩ := h
          have h1 := mem_countdown1 hk
          have h2 := ih (s.drop k) n2 hn2
          have h3 := runLen_le cls s
          simp only [List.length_drop] at h2
          omega
      | many0 cls =>
          unfold matchSeq at h
          simp only [List.mem_flatMap, List.mem_map] at h
          obtain ⟨k, hk, n2, hn2, rfl⟩ := h
          have h1 := mem_countdown0 hk
          have h2 := ih (s.drop k) n2 hn2
          have h3 := runLen_le cls s
          simp only [List.length_drop] at h2
          omega

theorem matchSeq_pos (it : SItem) (rest : List SItem) (s : List Char)
    (hc : it.consumes = true) : ∀ n ∈ matchSeq (it :: rest) s, 1 ≤ n := by
  intro n h
  cases it with
  | one cls =>
      cases s with
      | nil => simp [matchSeq] at h
      | cons c t =>
          unfold matchSeq at h
          split_ifs at h
          · simp only [List.mem_map] at h
            obtain ⟨n2, _, rfl⟩ := h
            omega
          · simp at h
  | many1 cls =>
      unfold matchSeq at h
      simp only [List.mem_flatMap, List.mem_map] at h
      obtain ⟨k, hk, n2, _, rfl⟩ := h
      have := mem_countdown1 hk
      omega
  | many0 cls => simp [SItem.consumes] at hc

theorem firstSome_some {α β : Type} (f : α → Option β) (l : List α) (b : β) :
    firstSome f l = some b → ∃ a ∈ l, f a = some b := by
  induction l with
  | nil =>
      intro h
      simp [firstSome] at h
  | cons a t ih =>
      intro h
      unfold firstSome at h
      cases hfa : f a with
      | some b2 =>
          rw [hfa] at h
          injection h with h
          subst h
          exact ⟨a, List.mem_cons_self a t, hfa⟩
      | none =>
          rw [hfa] at h
          obtain ⟨a2, ha2, hf2⟩ := ih h
          exact ⟨a2, List.mem_cons_of_mem a ha2, hf2⟩

theorem matchAt_bounds (pat : Pattern) (t : List Char) (i e : Nat)
    (hmc : mainConsumes pat) (h : matchAt pat t i = some e) :
    i < e ∧ e ≤ t.length := by
  unfold matchAt at h
  split_ifs at h with hb
  obtain ⟨m, hm, hinner⟩ := firstSome_some _ _ _ h
  obtain ⟨it, rest, hpm, hc⟩ := hmc
  have hm1 : 1 ≤ m := by
    rw [hpm] at hm
    exact matchSeq_pos it rest _ hc m hm
  have hm2 : m ≤ t.length - i := by
    have := matchSeq_le pat.main (t.drop i) m hm
    simpa [List.length_drop] using this
  cases hfs : firstSome
      (fun k => if boundaryAt t (i + m + k) then some (i + m + k) else none)
      (matchSeq pat.tailOpt ((t.drop i).drop m)) with
  | some e2 =>
      rw [hfs] at hinner
      injection hinner with hinner
      obtain ⟨k, hk, hfk⟩ := firstSome_some _ _ _ hfs
      have hk2 : k ≤ t.length - (i + m) := by
        have := matchSeq_le pat.tailOpt _ k hk
        simpa [List.length_drop] using this
      by_cases hbb : boundaryAt t (i + m + k) = true
      · rw [if_pos hbb] at hfk
        injection hfk with hfk
        omega
      · rw [if_neg hbb] at hfk
        exact absurd hfk (by simp)
  | none =>
      rw [hfs] at hinner
      by_cases hbb : boundaryAt t (i + m) = true
      · rw [if_pos hbb] at hinner
        injection hinner with hinner
        omega
      · rw [if_neg hbb] at hinner
        exact absurd hinner (by simp)

theorem exactPat_mainConsumes (c : Char) (cs : List Char) :
    mainConsumes (exactPat (c :: cs)) :=
  ⟨SItem.one (caseClass c), cs.map (fun x => SItem.one (caseClass x)), rfl, rfl⟩

theorem leetPat_mainConsumes (c : Char) (cs : List Char) :
    mainConsumes (leetPat (c :: cs)) := by
  unfold mainConsumes leetPat
  simp only [List.length_cons, List.range_succ_eq_map, List.map_cons]
  exact ⟨_, _, rfl, rfl⟩

theorem spacedPat_mainConsumes (c : Char) (cs : List Char) :
    mainConsumes (spacedPat (c :: cs)) := by
  unfold mainConsumes spacedPat
  simp only [List.length_cons, List.range_succ_eq_map, List.flatMap_cons,
    if_pos rfl, List.getD_cons_zero, List.nil_append, List.singleton_append]
  exact ⟨_, _, rfl, rfl⟩

theorem getPatterns_mainConsumes (word : List Char) (hw : word ≠ []) :
    ∀ pbe ∈ getPatterns word, mainConsumes pbe.1 := by
  cases word with
  | nil => exact absurd rfl hw
  | cons c cs =>
      intro pbe hpbe
      unfold getPatterns at hpbe
      rcases List.mem_append.mp hpbe with h | h
      · rw [List.mem_singleton] at h
        subst h
        exact exactPat_mainConsumes c cs
      · split_ifs at h with hlen
        · rcases List.mem_cons.mp h with h2 | h2
          · subst h2
            exact leetPat_mainConsumes c cs
          · rw [List.mem_singleton] at h2
            subst h2
            exact spacedPat_mainConsumes c cs
        · simp at h

theorem findIter_sound (pat : Pattern) (t : List Char) :
    ∀ p ∈ findIter pat t, matchAt pat t p.1 = some p.2 := by
  unfold findIter
  refine foldl_preserve
    (
      fun st : List (Nat × Nat) × Nat =>
        ∀ p ∈ st.1, matchAt pat t p.1 = some p.2)
    _ _ _ ?_ ?_
  · intro p h
    simp at h
  · intro st i hP
    dsimp only
    split_ifs with h1
    · exact hP
    · cases hma : matchAt pat t i with
      | some e =>
          intro p hp
          rcases List.mem_append.mp hp with h | h
          · exact hP p h
          · have he : p = (i, e) := by simpa using h
            subst he
            exact hma
      | none => exact hP

theorem candidatesFor_bounds (content word : List Char) (fd : FilterData)
    (hw : word ≠ []) :
    ∀ m ∈ candidatesFor content word fd,
      m.1 < m.2.1 ∧ m.2.1 ≤ content.length := by
  intro m hm
  unfold candidatesFor at hm
  simp only [List.mem_flatMap, List.mem_filterMap] at hm
  obtain ⟨pbe, hpbe, span, hspan, hsome⟩ := hm
  have hma := findIter_sound pbe.1 content span hspan
  have hb := matchAt_bounds pbe.1 content span.1 span.2
    (getPatterns_mainConsumes word hw pbe hpbe) hma
  split_ifs at hsome
  injection hsome with hsome
  subst hsome
  exact hb

theorem allCandidates_bounds (content : List Char) (forbidden : Forbidden)
    (hw : ∀ wf ∈ forbidden, wf.1 ≠ []) :
    ∀ m ∈ allCandidates content forbidden,
      m.1 < m.2.1 ∧ m.2.1 ≤ content.length := by
  intro m hm
  unfold allCandidates at hm
  simp only [List.mem_flatMap] at hm
  obtain ⟨wf, hwf, hm2⟩ := hm
  exact candidatesFor_bounds content wf.1 wf.2 (hw wf hwf) m hm2

/-! ### From sortedness and disjointness to the chain shape -/

theorem chain_of_sorted (l : List (Nat × Nat × List Char)) :
    ∀ b, StartDesc l → l.Pairwise Disj →
      (∀ m ∈ l, m.1 < m.2.1 ∧ m.2.1 ≤ b) → Chain b l := by
  induction l with
  | nil =>
      intro b _ _ _
      trivial
  | cons m rest ih =>
      intro b hs hd hb
      have hm := hb m (List.mem_cons_self m rest)
      have hs2 := List.pairwise_cons.mp hs
      have hd2 := List.pairwise_cons.mp hd
      refine ⟨hm.1, hm.2, ih m.1 hs2.2 hd2.2 ?_⟩
      intro x hx
      have hx1 := hb x (List.mem_cons_of_mem m hx)
      have hxle := hs2.1 x hx
      have hdisj := hd2.1 x hx
      unfold Disj at hdisj
      exact ⟨hx1.1, by omega⟩

theorem chain_mono {b b2 : Nat} {l : List (Nat × Nat × List Char)}
    (h : Chain b l) (hb : b ≤ b2) : Chain b2 l := by
  cases l with
  | nil => trivial
  | cons m rest =>
      obtain ⟨h1, h2, h3⟩ := h
      exact ⟨h1, by omega, h3⟩

/-! ### Applying replacements in descending order equals the splice -/

theorem applyAll_cons (t : List Char) (m : Nat × Nat × List Char)
    (rest : List (Nat × Nat × List Char)) :
    applyAll t (m :: rest) = applyAll (applyOne t m.1 m.2.1 m.2.2) rest := rfl

theorem applyAll_append (ms : List (Nat × Nat × List Char)) :
    ∀ a b : List Char, Chain a.length ms →
      applyAll (a ++ b) ms = applyAll a ms ++ b := by
  induction ms with
  | nil =>
      intro a b _
      rfl
  | cons m rest ih =>
      intro a b hch
      obtain ⟨h1, h2, h3⟩ := hch
      rw [applyAll_cons, applyAll_cons]
      have hsplit : applyOne (a ++ b) m.1 m.2.1 m.2.2 =
          applyOne a m.1 m.2.1 m.2.2 ++ b := by
        unfold applyOne
        rw [List.take_append_eq_append_take, List.drop_append_eq_append_drop]
        have ht : m.1 - a.length = 0 := by omega
        have hd : m.2.1 - a.length = 0 := by omega
        rw [ht, hd]
        simp
      rw [hsplit]
      refine ih _ b (chain_mono h3 ?_)
      unfold applyOne
      simp only [List.length_append, List.length_take, List.length_drop]
      omega

theorem applyAll_eq_spliceDesc (ms : List (Nat × Nat × List Char)) :
    ∀ t : List Char, Chain t.length ms → applyAll t ms = spliceDesc t ms := by
  induction ms with
  | nil =>
      intro t _
      rfl
  | cons m rest ih =>
      intro t hch
      obtain ⟨h1, h2, h3⟩ := hch
      have htlen : (t.take m.1).length = m.1 := by
        simp only [List.length_take]
        omega
      have hch2 : Chain (t.take m.1).length rest := by
        rw [htlen]
        exact h3
      calc applyAll t (m :: rest)
          = applyAll (t.take m.1 ++ (m.2.2 ++ t.drop m.2.1)) rest := by
            rw [applyAll_cons]
            unfold applyOne
            rw [List.append_assoc]
        _ = applyAll (t.take m.1) rest ++ (m.2.2 ++ t.drop m.2.1) :=
            applyAll_append rest (t.take m.1) _ hch2
        _ = spliceDesc (t.take m.1) rest ++ (m.2.2 ++ t.drop m.2.1) := by
            rw [ih _ hch2]
        _ = spliceDesc t (m :: rest) := by
            show _ = spliceDesc (t.take m.1) rest ++ m.2.2 ++ t.drop m.2.1
            exact (List.append_assoc _ _ _).symm

/-! ### Claim theorems: C5 and C10 -/

/-- Claim C5: the overlap-resolution step sorts candidates by start
offset descending and greedily accepts a candidate exactly when its span
intersects no already-accepted span — the result is pairwise disjoint, a
start-descending selection of the input, every rejected candidate
overlaps some accepted one, and when two candidates intersect the
rightmost-starting one wins, as in the concrete binary instance. -/
theorem c5_overlap_resolution :
    (∀ ms, (resolveOverlaps ms).Pairwise Disj) ∧
    (∀ ms, StartDesc (resolveOverlaps ms)) ∧
    (∀ ms x, x ∈ resolveOverlaps ms → x ∈ ms) ∧
    (∀ ms m, m ∈ ms → m ∈ resolveOverlaps ms ∨
      ∃ x ∈ resolveOverlaps ms, overlapSpans m.1 m.2.1 x.1 x.2.1 = true) ∧
    (∀ content forbidden, filteredMatches content forbidden =
      resolveOverlaps (allCandidates content forbidden)) ∧
    resolveOverlaps [(0, 3, str "x"), (2, 5, str "y")] = [(2, 5, str "y")] := by
  refine ⟨?_, ?_, ?_, ?_, fun _ _ => rfl, by decide⟩
  · intro ms
    exact greedyFilter_pairwise _ [] List.Pairwise.nil
  · intro ms
    obtain ⟨t2, heq, hsub⟩ := greedyFilter_spec (sortDesc ms) []
    unfold resolveOverlaps
    rw [heq, List.nil_append]
    exact (startDesc_sortDesc ms).sublist hsub
  · intro ms x hx
    obtain ⟨t2, heq, hsub⟩ := greedyFilter_spec (sortDesc ms) []
    unfold resolveOverlaps at hx
    rw [heq, List.nil_append] at hx
    exact mem_sortDesc.mp (hsub.subset hx)
  · intro ms m hm
    exact greedyFilter_complete (sortDesc ms) [] m (mem_sortDesc.mpr hm)

/-- Witness for claim C5: the completeness disjunction applied at the
losing candidate of the binary instance. -/
theorem c5_witness :
    (0, 3, str "x") ∈ resolveOverlaps [(0, 3, str "x"), (2, 5, str "y")] ∨
    ∃ x ∈ resolveOverlaps [(0, 3, str "x"), (2, 5, str "y")],
      overlapSpans 0 3 x.1 x.2.1 = true :=
  c5_overlap_resolution.2.2.2.1 [(0, 3, str "x"), (2, 5, str "y")]
    (0, 3, str "x") (by decide)

/-- Claim C10: for every input and rule set whose banned words are
nonempty, the accepted matches form a chain of nonempty, in-bounds,
pairwise disjoint spans, and the pipeline output equals the canonical
splice of the immutable input — every replacement lands at its original
offsets and every character outside the accepted spans is carried over
unchanged, in order, from the input. -/
theorem c10_frame (content : List Char) (forbidden : Forbidden)
    (hw : ∀ wf ∈ forbidden, wf.1 ≠ []) :
    (filteredMatches content forbidden).Pairwise Disj ∧
    Chain content.length (filteredMatches content forbidden) ∧
    detectAndReplace content forbidden =
      spliceDesc content (filteredMatches content forbidden) := by
  have hbounds := allCandidates_bounds content forbidden hw
  obtain ⟨t2, heq, hsub⟩ :=
    greedyFilter_spec (sortDesc (allCandidates content forbidden)) []
  have hfm : filteredMatches content forbidden = t2 := by
    unfold filteredMatches
    rw [heq, List.nil_append]
  have hpw : (filteredMatches content forbidden).Pairwise Disj :=
    greedyFilter_pairwise _ [] List.Pairwise.nil
  have hsorted2 : StartDesc (filteredMatches content forbidden) := by
    rw [hfm]
    exact (startDesc_sortDesc _).sublist hsub
  have hbounds2 : ∀ m ∈ filteredMatches content forbidden,
      m.1 < m.2.1 ∧ m.2.1 ≤ content.length := by
    intro m hm
    rw [hfm] at hm
    exact hbounds m (mem_sortDesc.mp (hsub.subset hm))
  have hchain := chain_of_sorted _ content.length hsorted2 hpw hbounds2
  refine ⟨hpw, hchain, ?_⟩
  unfold detectAndReplace
  split_ifs with hemp
  · subst hemp
    rfl
  · exact applyAll_eq_spliceDesc _ content hchain

/-- Witness for claim C10 at a concrete input and rule set. -/
theorem c10_frame_witness :
    (filteredMatches (str "ham sandwich")
        [(str "ham", ⟨str "bar", []⟩)]).Pairwise Disj ∧
    Chain (str "ham sandwich").length
      (filteredMatches (str "ham sandwich") [(str "ham", ⟨str "bar", []⟩)]) ∧
    detectAndReplace (str "ham sandwich") [(str "ham", ⟨str "bar", []⟩)] =
      spliceDesc (str "ham sandwich")
        (filteredMatches (str "ham sandwich") [(str "ham", ⟨str "bar", []⟩)]) :=
  c10_frame (str "ham sandwich") [(str "ham", ⟨str "bar", []⟩)] (by decide)

end FunPolice
